import Mathlib

/-!
Verification of the flash-cards quiz application (`flash_cards.py`).

The Python program is modelled by a shallow embedding: pure string
manipulation becomes Lean functions on `String`, the mutable `Game`
object becomes an explicit state record `GState`, the pygame event
loop becomes per-event step functions, and the two sources of
randomness (`random.randint` and `random.shuffle`) become explicit
oracle arguments (a list of index choices, and a reshuffling function
that is assumed to permute its input).  Fallible operations (Python
`exit()`, an uncaught `KeyError`, or a rejection-sampling loop that
has not yet terminated) are modelled with `Option` / `Except`.
-/

namespace FlashCards

/-- Python `s.replace(" ", "")`: remove every space character. -/
def removeSpaces (s : String) : String :=
  ⟨s.data.filter (fun c => c ≠ ' ')⟩

/-- Python `s.lower()` (ASCII case folding, which covers every string
the application compares). -/
def lowerStr (s : String) : String :=
  ⟨s.data.map Char.toLower⟩

/-- The normalisation applied by `Game.is_correct`:
`s.replace(" ", "").lower()`. -/
def normalize (s : String) : String :=
  lowerStr (removeSpaces s)

/-- Python `s.endswith(suf)`, on the underlying character lists. -/
def endswith (s suf : String) : Bool :=
  suf.data.isSuffixOf s.data

/-- Python `s.removesuffix(suf)`: drop a trailing occurrence of `suf`
if present, otherwise return `s` unchanged. -/
def removesuffix (s suf : String) : String :=
  if endswith s suf then ⟨s.data.take (s.data.length - suf.data.length)⟩ else s

/-- `create_img_obj`: the display name of an image file is the file
name minus the `.png` extension. -/
def imgNameOf (file : String) : String :=
  removesuffix file ".png"

/-- `Game.is_correct`.  The solution map (parsed `sol_map.json`) is an
association list from lowercased image name to the accepted answers.
`none` models the uncaught `KeyError` raised when the map exists but
has no entry for the current image. -/
def is_correct (hasSolmap : Bool) (solMap : List (String × List String))
    (imgName text : String) : Option Bool :=
  let txt := normalize text
  if hasSolmap then
    match solMap.lookup (lowerStr imgName) with
    | none => none
    | some sols =>
      if text ∈ sols then some true
      else if sols.any (fun sol => normalize sol == txt) then some true
      else some false
  else
    some (txt == normalize imgName)

/-- `Game.VALID_CHARS = r"[a-zA-z0-9 -]"`, applied to one character by
`re.match`.  Note the `A-z` range of the source regex: it spans every
code point from `A` (65) to `z` (122). -/
def valid_char (c : Char) : Bool :=
  (decide ('a' ≤ c) && decide (c ≤ 'z')) ||
  (decide ('A' ≤ c) && decide (c ≤ 'z')) ||
  (decide ('0' ≤ c) && decide (c ≤ '9')) ||
  c == ' ' || c == '-'

/-- The mutable fields of the Python `Game` object that the quiz logic
reads and writes.  `subsetImgs`/`subsetPos` model the generator
returned by `subset_gen`: the shuffled `_subset` (as display names)
together with the position of the next element to yield; a position
past the end models the trailing `None` sentinel. -/
structure GState where
  imageFiles : List String
  hasSolmap : Bool
  solMap : List (String × List String)
  subsetImgs : List String
  subsetPos : Nat
  subsetSize : Nat
  score : Nat
  text : String
  reveal : Bool
  img : String
deriving DecidableEq

/-- `self.subset = self.subset_gen(); self.next_image()` on a fresh
round: `subset_gen` shuffles `_subset` in place (oracle `sh`) and the
immediately following `next_image` takes the first element, clearing
the text buffer and the reveal flag.  `none` models the unbounded
recursion the source would enter on an empty subset. -/
def start_round (sh : List String → List String) (g : GState) : Option GState :=
  let resh := sh g.subsetImgs
  match resh.head? with
  | some i =>
      some { g with subsetImgs := resh, subsetPos := 1, img := i,
                    text := "", reveal := false }
  | none => none

/-- `Game.next_image`.  `sel` is the bound `self.select_subset` policy
(itself modelled with its own oracles); `sh` is the shuffle oracle used
when the same subset restarts. -/
def next_image (sh : List String → List String) (sel : GState → Option GState)
    (g : GState) : Option GState :=
  match g.subsetImgs[g.subsetPos]? with
  | some i =>
      some { g with subsetPos := g.subsetPos + 1, img := i,
                    text := "", reveal := false }
  | none =>
      if g.score < g.subsetSize then
        (start_round sh g).map (fun g2 => { g2 with score := 0 })
      else
        (sel g).map (fun g2 => { g2 with score := 0 })

/-- The pop loop of `select_subset_no_rep`:
`[image_files.pop(randint(0, len(image_files)-1)) for _ in range(subset_size)]`.
`picks` is the oracle giving each `randint` result; the loop returns
the popped file names (in pop order) and the remaining pool. -/
def popLoop : Nat → List Nat → List String → List String × List String
  | 0, _, pool => ([], pool)
  | size + 1, picks, pool =>
      let i := picks.headD 0
      let rest := popLoop size picks.tail (pool.eraseIdx i)
      (pool.getD i "" :: rest.1, rest.2)

/-- Validity of the `randint` oracle for `popLoop`: every pick is a
legal index of the pool it is applied to (which is exactly what
`randint(0, len-1)` guarantees). -/
def validPicks : Nat → List Nat → Nat → Bool
  | 0, _, _ => true
  | size + 1, picks, n =>
      decide (picks.headD 0 < n) && validPicks size picks.tail (n - 1)

/-- `Game.select_subset_no_rep`.  `none` models `exit()` on an empty
pool. -/
def select_subset_no_rep (sh : List String → List String) (picks : List Nat)
    (g : GState) : Option GState :=
  if g.imageFiles.isEmpty then none
  else
    let size := if g.imageFiles.length < g.subsetSize then g.imageFiles.length
                else g.subsetSize
    let res := popLoop size picks g.imageFiles
    start_round sh
      { g with imageFiles := res.2, subsetSize := size, subsetPos := 0,
               subsetImgs := res.1.map imgNameOf }

/-- The rejection-sampling loop of `select_subset_with_rep`:
`while len(subset) < size: i = randint(...); if i in contains: continue; append`.
`choices` is the finite prefix of the `randint` oracle consumed so far;
`chosen` is the accumulated list of distinct indices (`contains` is its
set of elements).  `none` means the loop has not terminated within the
supplied choices. -/
def with_rep_loop (size : Nat) : List Nat → List Nat → Option (List Nat)
  | [], chosen => if size ≤ chosen.length then some chosen else none
  | c :: rest, chosen =>
      if size ≤ chosen.length then some chosen
      else if c ∈ chosen then with_rep_loop size rest chosen
      else with_rep_loop size rest (chosen ++ [c])

/-- `Game.select_subset_with_rep`. -/
def select_subset_with_rep (sh : List String → List String) (choices : List Nat)
    (g : GState) : Option GState :=
  match with_rep_loop g.subsetSize choices [] with
  | none => none
  | some idxs =>
      start_round sh
        { g with subsetPos := 0,
                 subsetImgs := idxs.map (fun i => imgNameOf (g.imageFiles.getD i "")) }

/-- The `K_RETURN` branch of `Game.poll_events`.  `none` propagates an
`is_correct` crash (`KeyError`). -/
def handle_return (sh : List String → List String) (sel : GState → Option GState)
    (g : GState) : Option GState :=
  match is_correct g.hasSolmap g.solMap g.img g.text with
  | none => none
  | some true => next_image sh sel { g with score := g.score + 1 }
  | some false =>
      if g.reveal then next_image sh sel g
      else some { g with reveal := true }

/-- The `K_DELETE` branch of `Game.poll_events`. -/
def handle_delete (g : GState) : GState :=
  { g with text := "" }

/-- The `K_BACKSPACE` branch of `Game.poll_events` (no-op on an empty
buffer, exactly as in the source where the branch guard fails and the
regex then rejects the control character). -/
def handle_backspace (g : GState) : GState :=
  if 0 < g.text.length then { g with text := ⟨g.text.data.dropLast⟩ } else g

/-- The final `elif match(Game.VALID_CHARS, event.unicode)` branch of
`Game.poll_events`: append the typed character if it matches the regex,
then auto-advance (with a score increment) if the buffer has become
correct. -/
def handle_char (sh : List String → List String) (sel : GState → Option GState)
    (c : Char) (g : GState) : Option GState :=
  if valid_char c then
    let g1 := { g with text := g.text.push c }
    match is_correct g1.hasSolmap g1.solMap g1.img g1.text with
    | none => none
    | some true => next_image sh sel { g1 with score := g1.score + 1 }
    | some false => some g1
  else some g

/-- Keyboard/window events relevant to `Game.poll_events`. -/
inductive Event
  | quit
  | keyEscape
  | keyReturn
  | keyDelete
  | keyBackspace
  | keyChar (c : Char)

/-- One event dispatch of `Game.poll_events`.  `none` models process
termination (quit/escape), a crash (`KeyError`), or a selection that
does not complete. -/
def poll_event (sh : List String → List String) (sel : GState → Option GState)
    (g : GState) : Event → Option GState
  | .quit => none
  | .keyEscape => none
  | .keyReturn => handle_return sh sel g
  | .keyDelete => some (handle_delete g)
  | .keyBackspace => some (handle_backspace g)
  | .keyChar c => handle_char sh sel c g

/-- `Game.__init__` up to (and including) the startup assertion:
filter the directory listing to `.png` files, record whether
`sol_map.json` exists, and assert `subset_size <= n_images`.
`Except.error ()` models the fatal `AssertionError`; the event/render
loop (`Game.run`) is only ever entered on the `ok` result. -/
def game_init (listing : List String) (hasSolmap : Bool)
    (solMap : List (String × List String)) (subsetSize : Nat) :
    Except Unit GState :=
  let imageFiles := listing.filter (fun f => endswith f ".png")
  if subsetSize ≤ imageFiles.length then
    Except.ok { imageFiles := imageFiles, hasSolmap := hasSolmap,
                solMap := solMap, subsetImgs := [], subsetPos := 0,
                subsetSize := subsetSize, score := 0, text := "",
                reveal := false, img := "" }
  else
    Except.error ()

/-! Lemmas shared by the claim theorems below. -/

theorem cons_getD_eraseIdx {α : Type} (d : α) :
    ∀ (l : List α) (i : Nat), i < l.length →
      List.Perm (l.getD i d :: l.eraseIdx i) l := by
  intro l
  induction l with
  | nil => intro i h; simp at h
  | cons x xs ih =>
    intro i h
    match i with
    | 0 => simp
    | i + 1 =>
      simp only [List.getD_cons_succ, List.eraseIdx_cons_succ]
      exact (List.Perm.swap x _ _).trans ((ih i (by simpa using h)).cons x)

theorem popLoop_perm :
    ∀ (size : Nat) (picks : List Nat) (pool : List String),
      validPicks size picks pool.length = true →
      List.Perm ((popLoop size picks pool).1 ++ (popLoop size picks pool).2) pool := by
  intro size
  induction size with
  | zero => intro picks pool _; simp [popLoop]
  | succ k ih =>
    intro picks pool hv
    simp only [validPicks, Bool.and_eq_true, decide_eq_true_eq] at hv
    obtain ⟨h1, h2⟩ := hv
    have hlen : (pool.eraseIdx (picks.headD 0)).length = pool.length - 1 :=
      List.length_eraseIdx_of_lt h1
    have ihp := ih picks.tail (pool.eraseIdx (picks.headD 0)) (by rw [hlen]; exact h2)
    simp only [popLoop, List.cons_append]
    exact (ihp.cons _).trans (cons_getD_eraseIdx "" pool _ h1)

/-- With a duplicate-free pool, nothing popped for the subset is left in
the remaining pool. -/
theorem popLoop_not_mem_rest (size : Nat) (picks : List Nat) (pool : List String)
    (hv : validPicks size picks pool.length = true) (hnd : pool.Nodup) :
    ∀ x ∈ (popLoop size picks pool).1, x ∉ (popLoop size picks pool).2 := by
  have hperm := popLoop_perm size picks pool hv
  have hnd2 : ((popLoop size picks pool).1 ++ (popLoop size picks pool).2).Nodup :=
    (hperm.nodup_iff).mpr hnd
  exact List.nodup_append.mp hnd2 |>.2.2

/-- Elements of a later round's subset come from the remaining pool. -/
theorem popLoop_subset_mem (size : Nat) (picks : List Nat) (pool : List String)
    (hv : validPicks size picks pool.length = true) :
    ∀ x ∈ (popLoop size picks pool).1, x ∈ pool := by
  intro x hx
  exact (popLoop_perm size picks pool hv).mem_iff.mp (List.mem_append.mpr (Or.inl hx))

/-- Loop invariant of `with_rep_loop`: any successful run starting from
a duplicate-free accumulator of length at most `size`, fed only valid
indices, produces exactly `size` pairwise-distinct valid indices. -/
theorem with_rep_loop_sound (size n : Nat) :
    ∀ (choices chosen idxs : List Nat),
      with_rep_loop size choices chosen = some idxs →
      chosen.length ≤ size → chosen.Nodup →
      (∀ c ∈ chosen, c < n) → (∀ c ∈ choices, c < n) →
      idxs.length = size ∧ idxs.Nodup ∧ ∀ i ∈ idxs, i < n := by
  intro choices
  induction choices with
  | nil =>
    intro chosen idxs hrun hle hnd hcn _
    simp only [with_rep_loop] at hrun
    split at hrun
    · cases hrun
      exact ⟨Nat.le_antisymm hle (by assumption), hnd, hcn⟩
    · cases hrun
  | cons c rest ih =>
    intro chosen idxs hrun hle hnd hcn hvn
    simp only [with_rep_loop] at hrun
    split at hrun
    · cases hrun
      exact ⟨Nat.le_antisymm hle (by assumption), hnd, hcn⟩
    · rename_i hguard
      have hlt : chosen.length < size := Nat.lt_of_not_le hguard
      split at hrun
      · exact ih chosen idxs hrun hle hnd hcn (fun x hx => hvn x (List.mem_cons_of_mem c hx))
      · rename_i hmem
        refine ih (chosen ++ [c]) idxs hrun (by simpa using hlt) ?_ ?_
          (fun x hx => hvn x (List.mem_cons_of_mem c hx))
        · exact List.nodup_append.mpr ⟨hnd, List.nodup_singleton c,
            fun x hx hxc => hmem ((List.mem_singleton.mp hxc) ▸ hx)⟩
        · intro x hx
          rcases List.mem_append.mp hx with h | h
          · exact hcn x h
          · simpa using hvn x (by simp [List.mem_singleton.mp h])

/-- Termination of the rejection-sampling loop: as soon as the oracle
offers at least `size` distinct indices beyond those already chosen,
the loop finishes. -/
theorem with_rep_loop_isSome (size : Nat) :
    ∀ (choices chosen : List Nat),
      chosen.Nodup →
      size ≤ (chosen.toFinset ∪ choices.toFinset).card →
      (with_rep_loop size choices chosen).isSome = true := by
  intro choices
  induction choices with
  | nil =>
    intro chosen hnd hcard
    have : size ≤ chosen.length := by
      simpa [List.toFinset_card_of_nodup hnd] using hcard
    simp [with_rep_loop, this]
  | cons c rest ih =>
    intro chosen hnd hcard
    simp only [with_rep_loop]
    split
    · rfl
    · split
      · rename_i hmem
        refine ih chosen hnd (le_trans hcard (Finset.card_le_card ?_))
        intro x hx
        simp only [List.toFinset_cons, Finset.mem_union, Finset.mem_insert,
          List.mem_toFinset] at hx ⊢
        rcases hx with h | h | h
        · exact Or.inl h
        · exact Or.inl (by simpa [h] using hmem)
        · exact Or.inr h
      · rename_i hmem
        refine ih (chosen ++ [c]) ?_ (le_trans hcard (Finset.card_le_card ?_))
        · exact List.nodup_append.mpr ⟨hnd, List.nodup_singleton c,
            fun x hx hxc => hmem ((List.mem_singleton.mp hxc) ▸ hx)⟩
        · intro x hx
          simp only [List.toFinset_cons, List.toFinset_append, Finset.mem_union,
            Finset.mem_insert, List.mem_toFinset, List.toFinset_cons,
            List.mem_singleton] at hx ⊢
          rcases hx with h | h | h
          · exact Or.inl (Or.inl h)
          · exact Or.inl (Or.inr (by simp [h]))
          · exact Or.inr h

/-- Pigeonhole: with only `n` valid indices available and `n < size`,
the loop guard `len(subset) < subset_size` can never become false, so
no finite amount of randomness ever finishes the loop. -/
theorem with_rep_loop_none (size n : Nat) (hlt : n < size) :
    ∀ (choices chosen : List Nat),
      chosen.Nodup → (∀ c ∈ chosen, c < n) → (∀ c ∈ choices, c < n) →
      with_rep_loop size choices chosen = none := by
  have hbound : ∀ chosen : List Nat, chosen.Nodup → (∀ c ∈ chosen, c < n) →
      ¬ size ≤ chosen.length := by
    intro chosen hnd hcn hle
    have hsub : chosen.toFinset ⊆ Finset.range n := by
      intro x hx
      exact Finset.mem_range.mpr (hcn x (List.mem_toFinset.mp hx))
    have : chosen.length ≤ n := by
      calc chosen.length = chosen.toFinset.card :=
            (List.toFinset_card_of_nodup hnd).symm
        _ ≤ (Finset.range n).card := Finset.card_le_card hsub
        _ = n := Finset.card_range n
    omega
  intro choices
  induction choices with
  | nil =>
    intro chosen hnd hcn _
    simp [with_rep_loop, hbound chosen hnd hcn]
  | cons c rest ih =>
    intro chosen hnd hcn hvn
    simp only [with_rep_loop]
    rw [if_neg (hbound chosen hnd hcn)]
    split
    · exact ih chosen hnd hcn (fun x hx => hvn x (List.mem_cons_of_mem c hx))
    · rename_i hmem
      refine ih (chosen ++ [c]) ?_ ?_ (fun x hx => hvn x (List.mem_cons_of_mem c hx))
      · exact List.nodup_append.mpr ⟨hnd, List.nodup_singleton c,
          fun x hx hxc => hmem ((List.mem_singleton.mp hxc) ▸ hx)⟩
      · intro x hx
        rcases List.mem_append.mp hx with h | h
        · exact hcn x h
        · simpa [List.mem_singleton.mp h] using hvn c (List.mem_cons_self c rest)

theorem removesuffix_append (t : List Char) (suf : String) :
    removesuffix ⟨t ++ suf.data⟩ suf = ⟨t⟩ := by
  have hend : endswith ⟨t ++ suf.data⟩ suf = true := by
    simp only [endswith, List.isSuffixOf_iff_suffix]
    exact List.suffix_append t suf.data
  simp only [removesuffix, hend, if_true]
  congr 1
  rw [List.length_append, Nat.add_sub_cancel]
  exact List.take_left t suf.data

theorem endswith_exists {s suf : String} (h : endswith s suf = true) :
    ∃ t : List Char, s = ⟨t ++ suf.data⟩ := by
  rw [endswith, List.isSuffixOf_iff_suffix] at h
  obtain ⟨t, ht⟩ := h
  exact ⟨t, by rw [ht]⟩

/-- Stripping the `.png` extension is injective on file names that end
in `.png`, so distinct files yield distinct display names. -/
theorem imgNameOf_inj {f f' : String} (hf : endswith f ".png" = true)
    (hf' : endswith f' ".png" = true) (h : imgNameOf f = imgNameOf f') :
    f = f' := by
  obtain ⟨t, rfl⟩ := endswith_exists hf
  obtain ⟨t', rfl⟩ := endswith_exists hf'
  rw [imgNameOf, imgNameOf, removesuffix_append, removesuffix_append] at h
  have ht : t = t' := congrArg String.data h
  rw [ht]

theorem map_getD_imgName_nodup (pool : List String) (idxs : List Nat)
    (hpool : pool.Nodup) (hpng : ∀ f ∈ pool, endswith f ".png" = true)
    (hnd : idxs.Nodup) (hvalid : ∀ i ∈ idxs, i < pool.length) :
    (idxs.map (fun i => imgNameOf (pool.getD i ""))).Nodup := by
  refine List.Nodup.map_on ?_ hnd
  intro i hi j hj hij
  have hi' : i < pool.length := hvalid i hi
  have hj' : j < pool.length := hvalid j hj
  have hgi : pool.getD i "" = pool[i] := by
    simp [List.getD_eq_getElem?_getD, List.getElem?_eq_getElem hi']
  have hgj : pool.getD j "" = pool[j] := by
    simp [List.getD_eq_getElem?_getD, List.getElem?_eq_getElem hj']
  rw [hgi, hgj] at hij
  have heq : pool[i] = pool[j] :=
    imgNameOf_inj (hpng _ (List.getElem_mem hi')) (hpng _ (List.getElem_mem hj')) hij
  exact (List.Nodup.getElem_inj_iff hpool).mp heq

theorem start_round_eq {sh : List String → List String} {g g' : GState}
    (h : start_round sh g = some g') :
    g'.text = "" ∧ g'.reveal = false ∧ g'.score = g.score ∧
    g'.imageFiles = g.imageFiles ∧ g'.subsetSize = g.subsetSize ∧
    g'.subsetImgs = sh g.subsetImgs := by
  simp only [start_round] at h
  cases hh : (sh g.subsetImgs).head? with
  | none => rw [hh] at h; cases h
  | some i =>
    rw [hh] at h
    cases h
    exact ⟨rfl, rfl, rfl, rfl, rfl, rfl⟩

theorem start_round_isSome {sh : List String → List String} {g : GState}
    (hsh : ∀ l, List.Perm (sh l) l) (hne : g.subsetImgs ≠ []) :
    ∃ g', start_round sh g = some g' := by
  cases hh : (sh g.subsetImgs).head? with
  | none =>
    have h0 : sh g.subsetImgs = [] := List.head?_eq_none_iff.mp hh
    have := (hsh g.subsetImgs).length_eq
    rw [h0] at this
    exact absurd (List.length_eq_zero.mp this.symm) hne
  | some i =>
    exact ⟨{ g with subsetImgs := sh g.subsetImgs, subsetPos := 1, img := i,
                    text := "", reveal := false },
           by simp only [start_round, hh]⟩

theorem select_no_rep_clears {sh : List String → List String} {picks : List Nat}
    {g g' : GState} (h : select_subset_no_rep sh picks g = some g') :
    g'.text = "" ∧ g'.reveal = false ∧ g'.score = g.score := by
  simp only [select_subset_no_rep] at h
  split at h
  · cases h
  · obtain ⟨h1, h2, h3, _⟩ := start_round_eq h
    exact ⟨h1, h2, h3⟩

theorem select_with_rep_clears {sh : List String → List String} {choices : List Nat}
    {g g' : GState} (h : select_subset_with_rep sh choices g = some g') :
    g'.text = "" ∧ g'.reveal = false ∧ g'.score = g.score := by
  simp only [select_subset_with_rep] at h
  split at h
  · cases h
  · obtain ⟨h1, h2, h3, _⟩ := start_round_eq h
    exact ⟨h1, h2, h3⟩

/-! Claim theorems. -/

/-- C1.  Answer matching: with no `sol_map.json`, the typed text is
correct iff its space-stripped, lowercased form equals that of the
image's name (file name minus extension).  With a solution map whose
lookup (by lowercased image name) succeeds, the text is correct iff it
is exactly (case- and space-sensitively) one of the entries, or its
normalised form equals some entry's normalised form; in particular an
exact raw match is accepted unconditionally, whether or not its
normalised form matches any entry. -/
theorem is_correct_matching_spec :
    ∀ (hasSolmap : Bool) (solMap : List (String × List String)) (imgName text : String),
      (hasSolmap = false →
        (is_correct hasSolmap solMap imgName text = some true ↔
          normalize text = normalize imgName)) ∧
      (hasSolmap = true → ∀ sols, solMap.lookup (lowerStr imgName) = some sols →
        (is_correct hasSolmap solMap imgName text = some true ↔
          text ∈ sols ∨ ∃ sol ∈ sols, normalize sol = normalize text)) := by
  intro hs sm imgName text
  constructor
  · rintro rfl
    simp only [is_correct, if_false, Bool.false_eq_true, Option.some.injEq]
    rw [beq_iff_eq]
  · rintro rfl sols hlk
    simp only [is_correct, if_true, hlk]
    by_cases hmem : text ∈ sols
    · simp [hmem]
    · rw [if_neg hmem]
      by_cases hany : sols.any (fun sol => normalize sol == normalize text) = true
      · rw [if_pos hany]
        simp only [List.any_eq_true, beq_iff_eq] at hany
        simpa [hmem] using hany
      · rw [if_neg hany]
        constructor
        · intro h
          simp at h
        · rintro (h | ⟨sol, hsol, heq⟩)
          · exact absurd h hmem
          · exact absurd (List.any_eq_true.mpr ⟨sol, hsol, by simp [heq]⟩) hany

/-- C1 witness: with the spec's example map `{"cat": ["cat","kitty"]}`,
typing `KITTY` for image `cat` is judged correct via the
normalised-match branch. -/
theorem is_correct_matching_spec_witness :
    is_correct true [("cat", ["cat", "kitty"])] "cat" "KITTY" = some true := by
  refine ((is_correct_matching_spec true [("cat", ["cat", "kitty"])] "cat" "KITTY").2
    rfl ["cat", "kitty"] (by decide)).mpr ?_
  exact Or.inr ⟨"kitty", by decide, by decide⟩

/-- C2 counterexample: with no solution map and image file
`blue-jay.png` (name `blue-jay`), the claim's judgments fail: `Blue Jay`
and `bluejay` are judged incorrect, because the hyphen in the file name
survives normalisation (only spaces are removed). -/
theorem blue_jay_claim_cex :
    ¬ (is_correct false [] (imgNameOf "blue-jay.png") "Blue Jay" = some true ∧
       is_correct false [] (imgNameOf "blue-jay.png") "bluejay" = some true ∧
       is_correct false [] (imgNameOf "blue-jay.png") "blue_jay" = some false) := by
  decide

/-- C2 (amended).  With no solution map and the current image loaded
from `blue-jay.png`, `is_correct` judges `Blue Jay`, `bluejay` and
`blue_jay` all incorrect (the hyphen of the name is not removed by
normalisation), while hyphenated inputs such as `Blue-Jay` or
`blue - jay` are judged correct. -/
theorem blue_jay_matching :
    imgNameOf "blue-jay.png" = "blue-jay" ∧
    is_correct false [] (imgNameOf "blue-jay.png") "Blue Jay" = some false ∧
    is_correct false [] (imgNameOf "blue-jay.png") "bluejay" = some false ∧
    is_correct false [] (imgNameOf "blue-jay.png") "blue_jay" = some false ∧
    is_correct false [] (imgNameOf "blue-jay.png") "Blue-Jay" = some true ∧
    is_correct false [] (imgNameOf "blue-jay.png") "blue - jay" = some true := by
  decide

/-- C9.  When `sol_map.json` exists but the loaded map has no entry for
the current image's lowercased name, every call to `is_correct` raises
`KeyError` (modelled by `none`), for any typed text; a non-crashing
call with the map present means the lookup succeeded; and the
filename-derived fallback (which never crashes) runs only when the
sidecar file is absent. -/
theorem solmap_keyerror_spec :
    ∀ (solMap : List (String × List String)) (imgName text : String),
      (solMap.lookup (lowerStr imgName) = none →
        is_correct true solMap imgName text = none) ∧
      (∀ b, is_correct true solMap imgName text = some b →
        ∃ sols, solMap.lookup (lowerStr imgName) = some sols) ∧
      (∃ b, is_correct false solMap imgName text = some b) := by
  intro sm imgName text
  refine ⟨?_, ?_, ?_⟩
  · intro hlk
    simp [is_correct, hlk]
  · intro b hb
    simp only [is_correct, if_true] at hb
    cases hlk : sm.lookup (lowerStr imgName) with
    | none => rw [hlk] at hb; cases hb
    | some sols => exact ⟨sols, rfl⟩
  · exact ⟨normalize text == normalize imgName, by simp [is_correct]⟩

/-- C9 witness: a one-entry map keyed `dog` has no entry for image
`cat`, so `is_correct` crashes. -/
theorem solmap_keyerror_spec_witness :
    is_correct true [("dog", ["dog"])] "cat" "cat" = none :=
  (solmap_keyerror_spec [("dog", ["dog"])] "cat" "cat").1 (by decide)

/-- Concrete state used to exhibit the character-class counterexample:
no solution map, current image `cat`, empty buffer. -/
def gUnderscore : GState :=
  { imageFiles := ["cat.png", "dog.png"], hasSolmap := false, solMap := [],
    subsetImgs := ["cat", "dog"], subsetPos := 1, subsetSize := 2,
    score := 0, text := "", reveal := false, img := "cat" }

/-- C3 counterexample: `_` is outside `[A-Za-z0-9 -]`, yet the source
regex accepts it (its `A-z` range spans code points 65–122) and the
character is appended to the buffer. -/
theorem char_class_claim_cex :
    valid_char '_' = true ∧
    (Char.isAlpha '_' || Char.isDigit '_' || '_' == ' ' || '_' == '-') = false ∧
    handle_char (fun l => l) (fun _ => none) '_' gUnderscore =
      some { gUnderscore with text := "_" } := by
  decide

/-- C3 (amended).  A typed character is appended to the buffer iff it
matches `[a-zA-z0-9 -]`, i.e. iff it lies in the range `A`–`z` of code
points 65–122 (which is `[A-Za-z]` plus the six characters 91–96,
among them `_`), is a digit, a space, or a hyphen; every other
character leaves the state unchanged; and an accepted character that
does not complete a correct answer changes exactly the buffer. -/
theorem char_class_spec :
    ∀ (c : Char) (sh : List String → List String) (sel : GState → Option GState)
      (g : GState),
      (valid_char c = true ↔
        (('A' ≤ c ∧ c ≤ 'z') ∨ ('0' ≤ c ∧ c ≤ '9') ∨ c = ' ' ∨ c = '-')) ∧
      (valid_char c = false → handle_char sh sel c g = some g) ∧
      (valid_char c = true →
        is_correct g.hasSolmap g.solMap g.img (g.text.push c) = some false →
        handle_char sh sel c g = some { g with text := g.text.push c }) := by
  intro c sh sel g
  refine ⟨?_, ?_, ?_⟩
  · simp only [valid_char, Bool.or_eq_true, Bool.and_eq_true, decide_eq_true_eq,
      beq_iff_eq]
    constructor
    · rintro ((((⟨h1, h2⟩ | ⟨h1, h2⟩) | ⟨h1, h2⟩) | h) | h)
      · exact Or.inl ⟨le_trans (by decide : ('A' : Char) ≤ 'a') h1, h2⟩
      · exact Or.inl ⟨h1, h2⟩
      · exact Or.inr (Or.inl ⟨h1, h2⟩)
      · exact Or.inr (Or.inr (Or.inl h))
      · exact Or.inr (Or.inr (Or.inr h))
    · rintro (⟨h1, h2⟩ | ⟨h1, h2⟩ | h | h)
      · exact Or.inl (Or.inl (Or.inl (Or.inr ⟨h1, h2⟩)))
      · exact Or.inl (Or.inl (Or.inr ⟨h1, h2⟩))
      · exact Or.inl (Or.inr h)
      · exact Or.inr h
  · intro hv
    simp [handle_char, hv]
  · intro hv hic
    simp [handle_char, hv, hic]

/-- C3 witness: `!` is rejected by the regex and ignored, and the
accepted character `x` (which does not complete the answer `cat`) is
appended. -/
theorem char_class_spec_witness :
    handle_char (fun l => l) (fun _ => none) '!' gUnderscore = some gUnderscore ∧
    handle_char (fun l => l) (fun _ => none) 'x' gUnderscore =
      some { gUnderscore with text := "x" } := by
  constructor
  · exact (char_class_spec '!' (fun l => l) (fun _ => none) gUnderscore).2.1 (by decide)
  · exact (char_class_spec 'x' (fun l => l) (fun _ => none) gUnderscore).2.2
      (by decide) (by decide)

/-- Concrete revealed state whose buffer is judged correct: the
solution map accepts the empty string for image `cat` (reachable by
submitting a wrong answer, then pressing Delete). -/
def gRevealedCorrect : GState :=
  { imageFiles := ["cat.png", "dog.png"], hasSolmap := true,
    solMap := [("cat", [""])], subsetImgs := ["cat", "dog"], subsetPos := 1,
    subsetSize := 2, score := 0, text := "", reveal := true, img := "cat" }

/-- C4 counterexample: in a revealed state whose buffer is judged
correct, Return increments the score (the correctness check precedes
the reveal check), contradicting "advances ... without changing the
score" for every buffer content. -/
theorem revealed_submit_claim_cex :
    gRevealedCorrect.reveal = true ∧ gRevealedCorrect.score = 0 ∧
    Option.map GState.score
      (handle_return (fun l => l) (fun _ => none) gRevealedCorrect) = some 1 := by
  decide

/-- C4 (amended).  In a revealed state, Return advances to the next
image without changing the score provided the buffer is not judged
correct; if the buffer is judged correct the score increments before
advancing (the correctness check comes first).  Mid-round, the
incorrect-buffer submit moves to the next subset element with the score
unchanged. -/
theorem revealed_submit_spec :
    ∀ (sh : List String → List String) (sel : GState → Option GState) (g : GState),
      g.reveal = true →
      ((is_correct g.hasSolmap g.solMap g.img g.text = some false →
          handle_return sh sel g = next_image sh sel g) ∧
       (is_correct g.hasSolmap g.solMap g.img g.text = some true →
          handle_return sh sel g = next_image sh sel { g with score := g.score + 1 }) ∧
       (∀ i, is_correct g.hasSolmap g.solMap g.img g.text = some false →
          g.subsetImgs[g.subsetPos]? = some i →
          handle_return sh sel g =
            some { g with subsetPos := g.subsetPos + 1, img := i,
                          text := "", reveal := false })) := by
  intro sh sel g hrev
  refine ⟨?_, ?_, ?_⟩
  · intro hic
    simp [handle_return, hic, hrev]
  · intro hic
    simp [handle_return, hic]
  · intro i hic hget
    simp [handle_return, hic, hrev, next_image, hget]

/-- C4 witness: a revealed state with the wrong buffer `zzz` advances
to the next image `dog` with the score still 0. -/
theorem revealed_submit_spec_witness :
    handle_return (fun l => l) (fun _ => none)
      { gUnderscore with text := "zzz", reveal := true } =
      some { gUnderscore with subsetPos := 2, img := "dog",
                              text := "", reveal := false } := by
  have h := (revealed_submit_spec (fun l => l) (fun _ => none)
    { gUnderscore with text := "zzz", reveal := true } (by decide)).2.2
    "dog" (by decide) (by decide)
  simpa using h

/-- C5.  When `next_image` draws the end-of-round sentinel: with an
imperfect score the very same subset (a permutation of it, freshly
reshuffled by the oracle) restarts and the score resets to 0; with a
perfect score the bound selection policy is invoked (and, for either
concrete policy, a successful reselection also leaves the score at 0).
In all cases the advance clears the text buffer and un-sets the reveal
flag. -/
theorem round_completion_spec :
    ∀ (sh : List String → List String) (g : GState),
      (∀ l, List.Perm (sh l) l) →
      g.subsetImgs[g.subsetPos]? = none →
      ((∀ sel, g.score < g.subsetSize → g.subsetImgs ≠ [] →
          ∃ g', next_image sh sel g = some g' ∧
            List.Perm g'.subsetImgs g.subsetImgs ∧
            g'.subsetImgs = sh g.subsetImgs ∧ g'.score = 0 ∧
            g'.text = "" ∧ g'.reveal = false ∧
            g'.imageFiles = g.imageFiles ∧ g'.subsetSize = g.subsetSize) ∧
       (∀ sel, g.subsetSize ≤ g.score →
          next_image sh sel g =
            Option.map (fun g2 => { g2 with score := 0 }) (sel g)) ∧
       (∀ picks g', g.subsetSize ≤ g.score →
          next_image sh (select_subset_no_rep sh picks) g = some g' →
          g'.score = 0 ∧ g'.text = "" ∧ g'.reveal = false) ∧
       (∀ choices g', g.subsetSize ≤ g.score →
          next_image sh (select_subset_with_rep sh choices) g = some g' →
          g'.score = 0 ∧ g'.text = "" ∧ g'.reveal = false)) := by
  intro sh g hsh hnone
  have hdeleg : ∀ sel : GState → Option GState, g.subsetSize ≤ g.score →
      next_image sh sel g = Option.map (fun g2 => { g2 with score := 0 }) (sel g) := by
    intro sel hle
    simp [next_image, hnone, Nat.not_lt.mpr hle]
  refine ⟨?_, hdeleg, ?_, ?_⟩
  · intro sel hlt hne
    obtain ⟨g1, hg1⟩ := start_round_isSome hsh hne
    obtain ⟨ht, hr, hs, hif, hss, hsi⟩ := start_round_eq hg1
    refine ⟨{ g1 with score := 0 }, ?_, ?_, hsi, rfl, ht, hr, hif, hss⟩
    · simp [next_image, hnone, hlt, hg1]
    · exact hsi ▸ hsh g.subsetImgs
  · intro picks g' hle hrun
    rw [hdeleg _ hle] at hrun
    cases hsel : select_subset_no_rep sh picks g with
    | none => rw [hsel] at hrun; cases hrun
    | some g2 =>
      rw [hsel] at hrun
      cases hrun
      obtain ⟨ht, hr, _⟩ := select_no_rep_clears hsel
      exact ⟨rfl, ht, hr⟩
  · intro choices g' hle hrun
    rw [hdeleg _ hle] at hrun
    cases hsel : select_subset_with_rep sh choices g with
    | none => rw [hsel] at hrun; cases hrun
    | some g2 =>
      rw [hsel] at hrun
      cases hrun
      obtain ⟨ht, hr, _⟩ := select_with_rep_clears hsel
      exact ⟨rfl, ht, hr⟩

/-- Concrete state at an end-of-round sentinel with an imperfect score
(0 of 1). -/
def gRoundEnd : GState :=
  { imageFiles := ["b.png"], hasSolmap := false, solMap := [],
    subsetImgs := ["a"], subsetPos := 1, subsetSize := 1,
    score := 0, text := "x", reveal := true, img := "a" }

/-- C5 witness: at the sentinel with score 0 < 1, the same one-element
subset restarts with score 0, empty buffer and reveal off. -/
theorem round_completion_spec_witness :
    Option.map (fun g => (g.subsetImgs, g.score, g.text, g.reveal))
      (next_image (fun l => l) (fun _ => none) gRoundEnd) =
      some (["a"], 0, "", false) := by
  obtain ⟨g', heq, _, himgs, hscore, htext, hrev, _, _⟩ :=
    ((round_completion_spec (fun l => l) gRoundEnd
      (fun l => List.Perm.refl l) (by decide)).1) (fun _ => none)
      (by decide) (by decide)
  rw [heq]
  simp [himgs, hscore, htext, hrev, gRoundEnd]

/-- C6.  Without replacement: the popped subset and the remaining pool
together are a permutation of the previous pool (so each chosen file is
removed); with a duplicate-free pool nothing chosen remains in the
pool, and two successive selections are disjoint; on a successful
selection the subset size shrinks to `min subset_size remaining` and
the new pool is what the pop loop left; an empty pool at reselection
exits the process (`none`). -/
theorem no_replacement_spec :
    (∀ (size : Nat) (picks : List Nat) (pool : List String),
        validPicks size picks pool.length = true →
        List.Perm ((popLoop size picks pool).1 ++ (popLoop size picks pool).2) pool) ∧
    (∀ (size : Nat) (picks : List Nat) (pool : List String),
        validPicks size picks pool.length = true → pool.Nodup →
        ∀ x ∈ (popLoop size picks pool).1, x ∉ (popLoop size picks pool).2) ∧
    (∀ (size1 size2 : Nat) (picks1 picks2 : List Nat) (pool : List String),
        pool.Nodup →
        validPicks size1 picks1 pool.length = true →
        validPicks size2 picks2 (popLoop size1 picks1 pool).2.length = true →
        ∀ x ∈ (popLoop size1 picks1 pool).1,
          x ∉ (popLoop size2 picks2 (popLoop size1 picks1 pool).2).1) ∧
    (∀ (sh : List String → List String) (picks : List Nat) (g g' : GState),
        select_subset_no_rep sh picks g = some g' →
        g'.subsetSize = min g.subsetSize g.imageFiles.length ∧
        g'.imageFiles =
          (popLoop (min g.subsetSize g.imageFiles.length) picks g.imageFiles).2 ∧
        g'.subsetImgs =
          sh ((popLoop (min g.subsetSize g.imageFiles.length) picks
            g.imageFiles).1.map imgNameOf)) ∧
    (∀ (sh : List String → List String) (picks : List Nat) (g : GState),
        g.imageFiles = [] → select_subset_no_rep sh picks g = none) := by
  refine ⟨popLoop_perm, popLoop_not_mem_rest, ?_, ?_, ?_⟩
  · intro size1 size2 picks1 picks2 pool hnd hv1 hv2 x hx1 hx2
    exact popLoop_not_mem_rest size1 picks1 pool hv1 hnd x hx1
      (popLoop_subset_mem size2 picks2 _ hv2 x hx2)
  · intro sh picks g g' h
    have hmin : (if g.imageFiles.length < g.subsetSize then g.imageFiles.length
        else g.subsetSize) = min g.subsetSize g.imageFiles.length := by
      rcases Nat.lt_or_ge g.imageFiles.length g.subsetSize with hc | hc
      · rw [if_pos hc]; omega
      · rw [if_neg (Nat.not_lt.mpr hc)]; omega
    simp only [select_subset_no_rep] at h
    split at h
    · cases h
    · rw [hmin] at h
      obtain ⟨_, _, _, hif, hss, hsi⟩ := start_round_eq h
      exact ⟨hss, hif, hsi⟩
  · intro sh picks g hempty
    simp [select_subset_no_rep, hempty]

/-- C6 witness: popping indices 1 then 0 from a three-file pool yields
`["b.png","a.png"]` and leaves `["c.png"]`, a permutation of the pool;
and an empty pool makes the selector exit. -/
theorem no_replacement_spec_witness :
    List.Perm ((popLoop 2 [1, 0] ["a.png", "b.png", "c.png"]).1 ++
      (popLoop 2 [1, 0] ["a.png", "b.png", "c.png"]).2)
      ["a.png", "b.png", "c.png"] ∧
    select_subset_no_rep (fun l => l) [0] { gRoundEnd with imageFiles := [] } = none := by
  constructor
  · exact no_replacement_spec.1 2 [1, 0] ["a.png", "b.png", "c.png"] (by decide)
  · exact no_replacement_spec.2.2.2.2 (fun l => l) [0]
      { gRoundEnd with imageFiles := [] } rfl

/-- C7.  With replacement: a completed sampling loop returns exactly
`subset_size` pairwise-distinct valid indices; a successful selection
leaves the image pool and the subset size unchanged and clears the
buffer/reveal flag; and (for a duplicate-free pool of `.png` files) the
resulting subset contains no image twice and has exactly `subset_size`
elements. -/
theorem with_replacement_spec :
    (∀ (size n : Nat) (choices idxs : List Nat),
        (∀ c ∈ choices, c < n) →
        with_rep_loop size choices [] = some idxs →
        idxs.length = size ∧ idxs.Nodup ∧ ∀ i ∈ idxs, i < n) ∧
    (∀ (sh : List String → List String) (choices : List Nat) (g g' : GState),
        select_subset_with_rep sh choices g = some g' →
        g'.imageFiles = g.imageFiles ∧ g'.subsetSize = g.subsetSize) ∧
    (∀ (sh : List String → List String) (choices : List Nat) (g g' : GState),
        (∀ l, List.Perm (sh l) l) →
        (∀ c ∈ choices, c < g.imageFiles.length) →
        g.imageFiles.Nodup →
        (∀ f ∈ g.imageFiles, endswith f ".png" = true) →
        select_subset_with_rep sh choices g = some g' →
        g'.subsetImgs.Nodup ∧ g'.subsetImgs.length = g.subsetSize) := by
  have hsound : ∀ (size n : Nat) (choices idxs : List Nat),
      (∀ c ∈ choices, c < n) →
      with_rep_loop size choices [] = some idxs →
      idxs.length = size ∧ idxs.Nodup ∧ ∀ i ∈ idxs, i < n := by
    intro size n choices idxs hvn hrun
    exact with_rep_loop_sound size n choices [] idxs hrun (Nat.zero_le size)
      List.nodup_nil (by simp) hvn
  refine ⟨hsound, ?_, ?_⟩
  · intro sh choices g g' h
    simp only [select_subset_with_rep] at h
    split at h
    · cases h
    · obtain ⟨_, _, _, hif, hss, _⟩ := start_round_eq h
      exact ⟨hif, hss⟩
  · intro sh choices g g' hsh hvn hnd hpng h
    simp only [select_subset_with_rep] at h
    cases hloop : with_rep_loop g.subsetSize choices [] with
    | none => rw [hloop] at h; cases h
    | some idxs =>
      rw [hloop] at h
      obtain ⟨hlen, hidxnd, hidxv⟩ := hsound g.subsetSize g.imageFiles.length
        choices idxs hvn hloop
      obtain ⟨_, _, _, _, _, hsi⟩ := start_round_eq h
      have hmapnd : (idxs.map (fun i => imgNameOf (g.imageFiles.getD i ""))).Nodup :=
        map_getD_imgName_nodup g.imageFiles idxs hnd hpng hidxnd hidxv
      have hperm := hsh (idxs.map (fun i => imgNameOf (g.imageFiles.getD i "")))
      constructor
      · rw [hsi]
        exact hperm.nodup_iff.mpr hmapnd
      · rw [hsi, hperm.length_eq, List.length_map, hlen]

/-- C7 witness: choices `[0,0,1]` (one rejected duplicate) complete a
two-element subset with distinct indices `[0,1]`. -/
theorem with_replacement_spec_witness :
    with_rep_loop 2 [0, 0, 1] [] = some [0, 1] ∧
    ([0, 1] : List Nat).length = 2 ∧ ([0, 1] : List Nat).Nodup := by
  refine ⟨by decide, ?_, ?_⟩
  · exact (with_replacement_spec.1 2 2 [0, 0, 1] [0, 1] (by decide) (by decide)).1
  · exact (with_replacement_spec.1 2 2 [0, 0, 1] [0, 1] (by decide) (by decide)).2.1

/-- C8.  Startup asserts `subset_size <= n_images` over the `.png`
filter of the directory listing: the init fails with the fatal
assertion (before any loop can start) exactly when the requested size
exceeds the image count, and otherwise proceeds to a start state with
the requested size, score 0 and the filtered pool. -/
theorem startup_assert_spec :
    ∀ (listing : List String) (hasSolmap : Bool)
      (solMap : List (String × List String)) (size : Nat),
      (game_init listing hasSolmap solMap size = Except.error () ↔
        (listing.filter (fun f => endswith f ".png")).length < size) ∧
      (size ≤ (listing.filter (fun f => endswith f ".png")).length →
        game_init listing hasSolmap solMap size ≠ Except.error ()) ∧
      (∀ g, game_init listing hasSolmap solMap size = Except.ok g →
        g.subsetSize = size ∧ g.score = 0 ∧
        g.imageFiles = listing.filter (fun f => endswith f ".png")) := by
  intro listing hs sm size
  by_cases hle : size ≤ (listing.filter (fun f => endswith f ".png")).length
  · refine ⟨?_, fun _ => ?_, ?_⟩
    · simp [game_init, hle, Nat.not_lt.mpr hle]
    · simp [game_init, hle]
    · intro g hg
      simp only [game_init, if_pos hle] at hg
      cases hg
      exact ⟨rfl, rfl, rfl⟩
  · refine ⟨?_, fun h => absurd h hle, ?_⟩
    · simp [game_init, hle, Nat.lt_of_not_le hle]
    · intro g hg
      simp [game_init, hle] at hg

/-- C8 witness: a listing with two `.png` files (and one non-image)
rejects subset size 3 and accepts subset size 2. -/
theorem startup_assert_spec_witness :
    game_init ["a.png", "b.png", "notes.txt"] false [] 3 = Except.error () ∧
    game_init ["a.png", "b.png", "notes.txt"] false [] 2 ≠ Except.error () := by
  constructor
  · exact (startup_assert_spec ["a.png", "b.png", "notes.txt"] false [] 3).1.mpr
      (by decide)
  · exact (startup_assert_spec ["a.png", "b.png", "notes.txt"] false [] 2).2.1
      (by decide)

/-- C10.  Termination of the rejection-sampling loop, with `randint`
modelled as an oracle of index choices below the pool size `n`: if the
oracle offers at least `subset_size` distinct indices (which a fair
random source eventually does whenever `subset_size ≤ n`), the loop
terminates with a subset; if instead `subset_size` exceeds `n`, no
finite oracle ever finishes the loop — it runs forever. -/
theorem with_rep_termination_spec :
    ∀ (size n : Nat) (choices : List Nat),
      (∀ c ∈ choices, c < n) →
      ((size ≤ choices.toFinset.card →
          (with_rep_loop size choices []).isSome = true) ∧
       (n < size → with_rep_loop size choices [] = none)) := by
  intro size n choices hvn
  constructor
  · intro hcard
    apply with_rep_loop_isSome size choices [] List.nodup_nil
    simpa using hcard
  · intro hlt
    exact with_rep_loop_none size n hlt choices [] List.nodup_nil (by simp) hvn

/-- C10 witness: choices `[0,1]` finish a 2-of-2 sampling, while no
five choices below 2 can finish a 3-of-2 sampling. -/
theorem with_rep_termination_spec_witness :
    (with_rep_loop 2 [0, 1] []).isSome = true ∧
    with_rep_loop 3 [0, 1, 0, 1, 0] [] = none := by
  constructor
  · exact (with_rep_termination_spec 2 2 [0, 1] (by decide)).1 (by decide)
  · exact (with_rep_termination_spec 3 2 [0, 1, 0, 1, 0] (by decide)).2 (by decide)

end FlashCards
